import Mathlib

/-! Shallow embedding of `src/data_transformer.py` (class `DataTransformer`,
methods `clean_stock_data` and `calculate_technical_indicators`).

A pandas DataFrame is modelled as a list of column names together with a
list of rows, each row a list of cells aligned positionally with the
column names.  A cell is one of the values a pandas cell can hold in this
pipeline: missing (NaN/NaT/None), a finite numeric value (floats modelled
as rationals), positive or negative infinity, a text value, or a datetime
value (timestamps modelled as rationals on the time line).

The rolling-window arithmetic of `calculate_technical_indicators` is
embedded over an extended-rational type `ERat` that mirrors the IEEE
float special values the pandas code actually computes with: NaN,
finite values, and the two infinities.  Rationals stand for binary
floats; every identity claimed here involves only exact values
(means of small integers, 0, 100, NaN, infinity).
-/

deriving instance DecidableEq for Except

/-! Kernel-reducible rational arithmetic

The library definitions `Rat.add`, `Rat.mul`, `Rat.inv` are `@[irreducible]`, so the
pipeline below computes with the following equivalent operations (the
`_eq` lemmas prove them equal to the library operations), which lets
concrete claim instances be settled by `decide`. -/

/-- Rational addition via the smart constructor. -/
def qadd (a b : ℚ) : ℚ := mkRat (a.num * b.den + b.num * a.den) (a.den * b.den)

/-- Rational negation via the smart constructor. -/
def qneg (a : ℚ) : ℚ := mkRat (-a.num) a.den

/-- Rational division via the smart constructor. -/
def qdiv (a b : ℚ) : ℚ := Rat.divInt (a.num * b.den) (a.den * b.num)

theorem qadd_eq (a b : ℚ) : qadd a b = a + b := (Rat.add_def' a b).symm

theorem qneg_eq (a : ℚ) : qneg a = -a := by
  rw [qneg, ← Rat.neg_mkRat, Rat.mkRat_self]

theorem qdiv_eq (a b : ℚ) : qdiv a b = a / b := by
  rcases eq_or_ne b.num 0 with h | h
  · have hb : b = 0 := Rat.num_eq_zero.mp h
    rw [qdiv, h, Int.mul_zero, Rat.divInt_zero, hb, div_zero]
  · have ha : (a.den : ℤ) ≠ 0 := Int.ofNat_ne_zero.mpr a.den_nz
    refine Eq.symm ?_
    calc a / b = a * b.inv := Rat.div_def a b
      _ = Rat.divInt a.num a.den * Rat.divInt b.den b.num := by
            rw [Rat.divInt_self a, Rat.inv_def]
      _ = Rat.divInt (a.num * b.den) (a.den * b.num) :=
            Rat.divInt_mul_divInt _ _ ha h
      _ = qdiv a b := rfl

/-- One pandas cell: missing (NaN/NaT/None), finite numeric, +inf, -inf,
text, or datetime (timestamp as a rational on the time line). -/
inductive Cell where
  | na : Cell
  | num : ℚ → Cell
  | pinf : Cell
  | ninf : Cell
  | str : String → Cell
  | dt : ℚ → Cell
deriving DecidableEq, Repr

/-- A pandas DataFrame: column names plus rows of cells aligned with them. -/
structure DF where
  cols : List String
  rows : List (List Cell)
deriving DecidableEq, Repr

/-- Index of a named column, as pandas column lookup: first occurrence. -/
def colIdx (cols : List String) (name : String) : Option ℕ :=
  match cols with
  | [] => none
  | c :: cs => if c = name then some 0 else (colIdx cs name).map (fun k => k + 1)

/-- Extended rationals mirroring IEEE float special values used by the
indicator arithmetic: NaN, finite, +inf, -inf. -/
inductive ERat where
  | nan : ERat
  | fin : ℚ → ERat
  | pinf : ERat
  | ninf : ERat
deriving DecidableEq, Repr

/-- IEEE-style addition on extended rationals (NaN propagates,
inf + (-inf) = NaN). -/
def eadd : ERat → ERat → ERat
  | ERat.nan, _ => ERat.nan
  | _, ERat.nan => ERat.nan
  | ERat.pinf, ERat.ninf => ERat.nan
  | ERat.ninf, ERat.pinf => ERat.nan
  | ERat.pinf, _ => ERat.pinf
  | _, ERat.pinf => ERat.pinf
  | ERat.ninf, _ => ERat.ninf
  | _, ERat.ninf => ERat.ninf
  | ERat.fin a, ERat.fin b => ERat.fin (qadd a b)

/-- IEEE-style negation on extended rationals. -/
def eneg : ERat → ERat
  | ERat.nan => ERat.nan
  | ERat.fin a => ERat.fin (qneg a)
  | ERat.pinf => ERat.ninf
  | ERat.ninf => ERat.pinf

/-- IEEE-style subtraction on extended rationals. -/
def esub (a b : ERat) : ERat := eadd a (eneg b)

/-- IEEE-style division on extended rationals.  Division of a nonzero
finite value by zero yields a signed infinity (pandas floats divide by a
positive zero here), 0/0 yields NaN, finite/inf yields 0. -/
def ediv : ERat → ERat → ERat
  | ERat.nan, _ => ERat.nan
  | _, ERat.nan => ERat.nan
  | ERat.pinf, ERat.pinf => ERat.nan
  | ERat.pinf, ERat.ninf => ERat.nan
  | ERat.ninf, ERat.pinf => ERat.nan
  | ERat.ninf, ERat.ninf => ERat.nan
  | ERat.pinf, ERat.fin b => if b < 0 then ERat.ninf else ERat.pinf
  | ERat.ninf, ERat.fin b => if b < 0 then ERat.pinf else ERat.ninf
  | ERat.fin _, ERat.pinf => ERat.fin 0
  | ERat.fin _, ERat.ninf => ERat.fin 0
  | ERat.fin a, ERat.fin b =>
    if b = 0 then (if a = 0 then ERat.nan else if 0 < a then ERat.pinf else ERat.ninf)
    else ERat.fin (qdiv a b)

/-- The boolean `x > 0` as pandas evaluates it elementwise: NaN compares
false. -/
def egtZero : ERat → Bool
  | ERat.fin q => decide (0 < q)
  | ERat.pinf => true
  | _ => false

/-- The boolean `x < 0` as pandas evaluates it elementwise: NaN compares
false. -/
def eltZero : ERat → Bool
  | ERat.fin q => decide (q < 0)
  | ERat.ninf => true
  | _ => false

/-- Sum of a list of extended rationals (NaN in the list makes the sum NaN,
as for a rolling window that is not fully valid). -/
def esum (xs : List ERat) : ERat := xs.foldr eadd (ERat.fin 0)

/-- `Series.diff()` tail: each element minus its predecessor. -/
def diffAux : ERat → List ERat → List ERat
  | _, [] => []
  | prev, y :: ys => esub y prev :: diffAux y ys

/-- `Series.diff()`: NaN at position 0, then successive differences —
the `delta = df[close].diff()` line. -/
def diffCol : List ERat → List ERat
  | [] => []
  | x :: xs => ERat.nan :: diffAux x xs

/-- `delta.where(delta > 0, 0)`: keep the value where the condition holds,
else 0.  NaN compares false, so the leading NaN of `diff` becomes 0 here. -/
def gainCol (deltas : List ERat) : List ERat :=
  deltas.map (fun d => if egtZero d then d else ERat.fin 0)

/-- `-delta.where(delta < 0, 0)`: keep the value where `delta < 0`, else 0,
then negate.  NaN compares false, so the leading NaN becomes 0 here too. -/
def lossCol (deltas : List ERat) : List ERat :=
  deltas.map (fun d => eneg (if eltZero d then d else ERat.fin 0))

/-- `rolling(window=N).mean()` at one position: NaN until the trailing
window of N rows is available, else the mean of that window (a NaN inside
the window makes the mean NaN, matching the default min_periods = N). -/
def rollingMeanAt (N : ℕ) (xs : List ERat) (i : ℕ) : ERat :=
  if i + 1 < N then ERat.nan
  else ediv (esum ((xs.drop (i + 1 - N)).take N)) (ERat.fin N)

/-- `rolling(window=N).mean()` over a whole column. -/
def rollingMean (N : ℕ) (xs : List ERat) : List ERat :=
  (List.range xs.length).map (fun i => rollingMeanAt N xs i)

/-- `gain = (delta.where(delta > 0, 0)).rolling(window=14).mean()`. -/
def gainAvg (closes : List ERat) : List ERat :=
  rollingMean 14 (gainCol (diffCol closes))

/-- `loss = (-delta.where(delta < 0, 0)).rolling(window=14).mean()`. -/
def lossAvg (closes : List ERat) : List ERat :=
  rollingMean 14 (lossCol (diffCol closes))

/-- `rs = gain / loss`. -/
def rsCol (closes : List ERat) : List ERat :=
  List.zipWith ediv (gainAvg closes) (lossAvg closes)

/-- `df[RSI] = 100 - (100 / (1 + rs))`. -/
def rsiCol (closes : List ERat) : List ERat :=
  (rsCol closes).map (fun r =>
    esub (ERat.fin 100) (ediv (ERat.fin 100) (eadd (ERat.fin 1) r)))

/-- Cell of a float-typed column as seen by the rolling arithmetic;
`none` for cells that make the column non-numeric (text, datetime), on
which the pandas rolling/arithmetic calls fail. -/
def cellToERat : Cell → Option ERat
  | Cell.na => some ERat.nan
  | Cell.num q => some (ERat.fin q)
  | Cell.pinf => some ERat.pinf
  | Cell.ninf => some ERat.ninf
  | Cell.str _ => none
  | Cell.dt _ => none

/-- Convert a whole column; `none` as soon as one cell is non-numeric. -/
def cellsToERat : List Cell → Option (List ERat)
  | [] => some []
  | c :: cs =>
    match cellToERat c, cellsToERat cs with
    | some e, some es => some (e :: es)
    | _, _ => none

/-- Store a computed float back into a DataFrame cell. -/
def eratToCell : ERat → Cell
  | ERat.nan => Cell.na
  | ERat.fin q => Cell.num q
  | ERat.pinf => Cell.pinf
  | ERat.ninf => Cell.ninf

/-- `df[name] = vals`: overwrite the column if it exists, else append it
as a new last column (pandas column assignment). -/
def setCol (df : DF) (name : String) (vals : List Cell) : DF :=
  match colIdx df.cols name with
  | some j => ⟨df.cols, (df.rows.zip vals).map (fun p => p.1.set j p.2)⟩
  | none => ⟨df.cols ++ [name], (df.rows.zip vals).map (fun p => p.1 ++ [p.2])⟩

/-- `DataTransformer.calculate_technical_indicators`.

The source reads `df[close]` (KeyError naming the column if absent —
modelled as an error), computes the two rolling means and the RSI from
the close column, and assigns the three new columns `SMA_20`, `SMA_50`,
`RSI` in that order.  A non-float close column makes the first rolling
call fail in pandas, modelled as the second error case. -/
def calculate_technical_indicators (df : DF) : Except String DF :=
  match colIdx df.cols "close" with
  | none => Except.error "close"
  | some j =>
    match cellsToERat (df.rows.map (fun r => r.getD j Cell.na)) with
    | none => Except.error "close column is not numeric"
    | some closes =>
      let df1 := setCol df "SMA_20" ((rollingMean 20 closes).map eratToCell)
      let df2 := setCol df1 "SMA_50" ((rollingMean 50 closes).map eratToCell)
      Except.ok (setCol df2 "RSI" ((rsiCol closes).map eratToCell))

/-- The DataFrame object held by the caller after `calculate_technical_indicators`
returns.  The source assigns `df[SMA_20] = ...` etc. on the very object
the caller passed, so on success the frame held by the caller IS the returned
annotated frame; on failure the first statement fails while evaluating
its right-hand side, before any assignment, so the frame is unchanged. -/
def calculate_technical_indicators_inputAfter (df : DF) : DF :=
  match calculate_technical_indicators df with
  | Except.ok out => out
  | Except.error _ => df

/-- `df.drop_duplicates()` keeping the first occurrence of each fully
identical row (pandas treats NaN cells as equal for this comparison, as
does `Cell` equality). -/
def dropDupAux : List (List Cell) → List (List Cell) → List (List Cell)
  | _, [] => []
  | seen, r :: rs =>
    if r ∈ seen then dropDupAux seen rs else r :: dropDupAux (r :: seen) rs

/-- `df.drop_duplicates()`. -/
def drop_duplicates (rows : List (List Cell)) : List (List Cell) :=
  dropDupAux [] rows

/-- One row of `fillna(method=ffill)`: a missing cell takes the value
carried down its column, a present cell is kept (and becomes the new
carried value, handled by the caller). -/
def ffillStep : List Cell → List Cell → List Cell
  | _, [] => []
  | [], c :: cs => c :: ffillStep [] cs
  | l :: ls, c :: cs => (if c = Cell.na then l else c) :: ffillStep ls cs

/-- `fillna(method=ffill)` over the rows, threading the last filled row
as the per-column carry. -/
def ffillRowsAux : List Cell → List (List Cell) → List (List Cell)
  | _, [] => []
  | carry, r :: rs =>
    let r2 := ffillStep carry r
    r2 :: ffillRowsAux r2 rs

/-- `df.fillna(method=ffill)`: forward-fill every column independently;
a missing value at the start of a column stays missing. -/
def ffill (L : ℕ) (rows : List (List Cell)) : List (List Cell) :=
  ffillRowsAux (List.replicate L Cell.na) rows

/-- Split a character list into the groups between occurrences of a
separator character. -/
def splitChar (sep : Char) : List Char → List (List Char)
  | [] => [[]]
  | c :: cs =>
    if c = sep then [] :: splitChar sep cs
    else
      match splitChar sep cs with
      | [] => [[c]]
      | g :: gs => (c :: g) :: gs

/-- The natural number denoted by a list of decimal digit characters. -/
def digitsToNat (cs : List Char) : ℕ :=
  cs.foldl (fun a c => a * 10 + (c.toNat - 48)) 0

/-- A nonempty all-digit character list, parsed; otherwise `none`. -/
def digitGroupToNat (cs : List Char) : Option ℕ :=
  if cs ≠ [] ∧ cs.all Char.isDigit then some (digitsToNat cs) else none

/-- Modelled stand-in for the date parsing done by `pd.to_datetime` on a
text cell: an ISO `yyyy-mm-dd` string parses to a timestamp, anything
else fails to parse.  (The exact set of strings pandas accepts is a
library detail; what matters here is that parseable and unparseable
date strings both exist.) -/
def parseDate (s : String) : Option ℚ :=
  match splitChar (Char.ofNat 45) s.data with
  | [y, m, d] =>
    match digitGroupToNat y, digitGroupToNat m, digitGroupToNat d with
    | some yn, some mn, some dn =>
      if 1 ≤ mn ∧ mn ≤ 12 ∧ 1 ≤ dn ∧ dn ≤ 31 then
        some ((yn * 10000 + mn * 100 + dn : ℕ) : ℚ)
      else none
    | _, _, _ => none
  | _ => none

/-- `pd.to_datetime` on one cell, with its default `errors=raise`:
missing stays missing (NaT), numerics convert to timestamps, timestamps
pass through, an unparseable text cell RAISES (modelled as `error`), and
infinities are out of bounds for a timestamp. -/
def to_datetime : Cell → Except String Cell
  | Cell.na => Except.ok Cell.na
  | Cell.num q => Except.ok (Cell.dt q)
  | Cell.dt d => Except.ok (Cell.dt d)
  | Cell.pinf => Except.error "date out of bounds"
  | Cell.ninf => Except.error "date out of bounds"
  | Cell.str s =>
    match parseDate s with
    | some n => Except.ok (Cell.dt n)
    | none => Except.error ("could not parse date " ++ s)

/-- Modelled stand-in for the numeric-string parsing of `pd.to_numeric`:
digits with an optional fractional part.  (Again the exact accepted set
is a pandas detail; parseable and unparseable numeric strings both
exist.) -/
def parseNumDigits (intPart fracPart : List Char) : Option ℚ :=
  if intPart = [] ∧ fracPart = [] then none
  else if (intPart.all Char.isDigit) ∧ (fracPart.all Char.isDigit) then
    some (Rat.divInt (digitsToNat (intPart ++ fracPart)) ((10 : ℕ) ^ fracPart.length))
  else none

/-- Numeric parse of a full string: optional leading minus, then digits
with at most one decimal point. -/
def parseNum (s : String) : Option ℚ :=
  let core := fun (t : List Char) =>
    match splitChar (Char.ofNat 46) t with
    | [ip] => parseNumDigits ip []
    | [ip, fp] => parseNumDigits ip fp
    | _ => none
  match s.data with
  | c :: cs => if c = Char.ofNat 45 then (core cs).map qneg else core (c :: cs)
  | [] => none

/-- `pd.to_numeric(col, errors=coerce)` on one cell: numerics and
infinities pass through, timestamps convert to their numeric value, a
text cell parses or degrades to missing, missing stays missing.  Never
an error. -/
def to_numeric : Cell → Cell
  | Cell.na => Cell.na
  | Cell.num q => Cell.num q
  | Cell.pinf => Cell.pinf
  | Cell.ninf => Cell.ninf
  | Cell.dt d => Cell.num d
  | Cell.str s =>
    match parseNum s with
    | some q => Cell.num q
    | none => Cell.na

/-- Apply `to_datetime` down a column, raising (short-circuiting) on the
first unparseable cell, as the whole-column `pd.to_datetime` call does. -/
def coerceDateRows (j : ℕ) : List (List Cell) → Except String (List (List Cell))
  | [] => Except.ok []
  | r :: rs =>
    match to_datetime (r.getD j Cell.na) with
    | Except.error e => Except.error e
    | Except.ok c =>
      match coerceDateRows j rs with
      | Except.error e => Except.error e
      | Except.ok rs2 => Except.ok (r.set j c :: rs2)

/-- The source list `price_columns = [open, close, high, low]`, in order. -/
def price_columns : List String := ["open", "close", "high", "low"]

/-- `df[col] = pd.to_numeric(df[col], errors=coerce)` for one named
column, skipped when the column is absent (the source guards with
`if col in df.columns`). -/
def coerceNumericCol (cols : List String) (name : String)
    (rows : List (List Cell)) : List (List Cell) :=
  match colIdx cols name with
  | some j => rows.map (fun r => r.set j (to_numeric (r.getD j Cell.na)))
  | none => rows

/-- The source loop over the four price columns. -/
def coercePrices (cols : List String) (rows : List (List Cell)) :
    List (List Cell) :=
  price_columns.foldl (fun rs c => coerceNumericCol cols c rs) rows

/-- Does a row still contain a missing cell? (`df.dropna()` predicate). -/
def rowHasNa (r : List Cell) : Bool := r.any (fun c => c == Cell.na)

/-- `df.dropna()`: drop every row containing a missing cell. -/
def dropna (rows : List (List Cell)) : List (List Cell) :=
  rows.filter (fun r => !rowHasNa r)

/-- `DataTransformer.clean_stock_data`: drop_duplicates, forward-fill,
convert the date column (if present) with `pd.to_datetime` (which can
raise), coerce the four price columns (if present) with
`pd.to_numeric(errors=coerce)` (which cannot), then `dropna()`. -/
def clean_stock_data (df : DF) : Except String DF :=
  let rows1 := drop_duplicates df.rows
  let rows2 := ffill df.cols.length rows1
  match (match colIdx df.cols "date" with
         | some j => coerceDateRows j rows2
         | none => Except.ok rows2) with
  | Except.error e => Except.error e
  | Except.ok rows3 => Except.ok ⟨df.cols, dropna (coercePrices df.cols rows3)⟩

/-- `clean_stock_data` applied twice in sequence. -/
def clean_twice (df : DF) : Except String DF :=
  match clean_stock_data df with
  | Except.ok d => clean_stock_data d
  | Except.error e => Except.error e

/-- Did an Except-returning call succeed? -/
def exceptIsOk {α : Type} : Except String α → Bool
  | Except.ok _ => true
  | Except.error _ => false

/-- The rows of the cleaned frame (empty when the call failed). -/
def cleanRowsOf (df : DF) : List (List Cell) :=
  match clean_stock_data df with
  | Except.ok d => d.rows
  | Except.error _ => []

/-- A one-column close-price frame, as handed to the indicator step. -/
def dfOfCloses (closes : List ℚ) : DF :=
  ⟨["close"], closes.map (fun q => [Cell.num q])⟩

/-! Concrete inputs used by the claim theorems -/

/-- Fifteen strictly increasing closes 10, 11, ..., 24 (a 15-point
strictly increasing series; the spec writes the series as
`[10, 11, 12, 13, ..., 23]` and calls it 15 points). -/
def incrCloses15 : List ℚ := [10, 11, 12, 13, 14, 15, 16, 17, 18, 19, 20, 21, 22, 23, 24]

/-- Fourteen strictly increasing closes 10, 11, ..., 23. -/
def incrCloses14 : List ℚ := [10, 11, 12, 13, 14, 15, 16, 17, 18, 19, 20, 21, 22, 23]

/-- Fifteen constant closes: every delta is zero, so both the average
gain and the average loss over any full window are exactly zero. -/
def constCloses15 : List ℚ := List.replicate 15 10

/-- A batch whose second row differs from the first only by a missing
close; forward-fill makes the two rows fully identical, after the
dedupe step has already run. -/
def dupAfterFillBatch : DF :=
  ⟨["symbol", "date", "close"],
   [[Cell.str "A", Cell.str "2023-01-02", Cell.num 5],
    [Cell.str "A", Cell.str "2023-01-02", Cell.na]]⟩

/-- The same shape of batch, used for the idempotence claim. -/
def dupAfterFillBatch2 : DF :=
  ⟨["symbol", "date", "close"],
   [[Cell.str "A", Cell.str "2023-01-02", Cell.num 5],
    [Cell.str "A", Cell.str "2023-01-02", Cell.na]]⟩

/-- A batch whose only malformation is one unparseable date string. -/
def badDateBatch : DF :=
  ⟨["date", "close"], [[Cell.str "not-a-date", Cell.num 1]]⟩

/-- A well-formed batch containing one unparseable price string. -/
def badPriceBatch : DF :=
  ⟨["date", "close"],
   [[Cell.str "2023-01-01", Cell.str "abc"],
    [Cell.str "2023-01-02", Cell.num 3]]⟩

/-- A minimal one-column close frame. -/
def oneCloseBatch : DF := ⟨["close"], [[Cell.num 1]]⟩

/-- A frame with no close column at all. -/
def noCloseBatch : DF := ⟨["symbol"], [[Cell.str "A"]]⟩

/-! Helper lemmas -/

/-- A name not occurring in the column list has no column index. -/
theorem colIdx_eq_none_of_not_mem (cols : List String) (name : String)
    (h : name ∉ cols) : colIdx cols name = none := by
  induction cols with
  | nil => rfl
  | cons c cs ih =>
    have hc : c ≠ name := fun he => h (by rw [← he]; exact List.mem_cons_self c cs)
    rw [colIdx, if_neg hc, ih (fun hm => h (List.mem_cons_of_mem c hm))]
    rfl

/-- A found column index points below the length, at the name looked up. -/
theorem colIdx_getD (cols : List String) (name : String) (j : ℕ)
    (h : colIdx cols name = some j) :
    j < cols.length ∧ cols.getD j "" = name := by
  induction cols generalizing j with
  | nil => exact absurd h (by rw [colIdx]; exact Option.noConfusion)
  | cons c cs ih =>
    rw [colIdx] at h
    by_cases hc : c = name
    · rw [if_pos hc] at h
      cases h
      exact ⟨Nat.succ_pos _, hc⟩
    · rw [if_neg hc] at h
      cases hk : colIdx cs name with
      | none => rw [hk] at h; exact absurd h (by exact Option.noConfusion)
      | some k =>
        rw [hk] at h
        cases h
        obtain ⟨hlt, hget⟩ := ih k hk
        exact ⟨Nat.succ_lt_succ hlt, hget⟩

/-! Claim theorems (first batch) -/

/-- C1.  The spec demands RSI = 100 at every position where the trailing
14-period average loss is exactly zero with a full delta window.  The
code instead computes `rs = gain / loss`, which is 0/0 = NaN when the
average gain is also zero, and `100 - 100/(1 + NaN)` stays NaN: at row
14 of the 15-point constant series the average loss is exactly 0 and the
delta window is full, yet the RSI cell is missing, not 100.  The concrete
instance given by the spec (a 15-point strictly increasing series) does give
RSI = 100 at the 15th point, via gain/0 = +inf. -/
theorem rsi_zero_loss_code_bug :
    (lossAvg (constCloses15.map ERat.fin)).getD 14 ERat.nan = ERat.fin 0
  ∧ calculate_technical_indicators (dfOfCloses constCloses15)
      = Except.ok ⟨["close", "SMA_20", "SMA_50", "RSI"],
          List.replicate 15 [Cell.num 10, Cell.na, Cell.na, Cell.na]⟩
  ∧ calculate_technical_indicators (dfOfCloses incrCloses15)
      = Except.ok ⟨["close", "SMA_20", "SMA_50", "RSI"],
          [[Cell.num 10, Cell.na, Cell.na, Cell.na],
           [Cell.num 11, Cell.na, Cell.na, Cell.na],
           [Cell.num 12, Cell.na, Cell.na, Cell.na],
           [Cell.num 13, Cell.na, Cell.na, Cell.na],
           [Cell.num 14, Cell.na, Cell.na, Cell.na],
           [Cell.num 15, Cell.na, Cell.na, Cell.na],
           [Cell.num 16, Cell.na, Cell.na, Cell.na],
           [Cell.num 17, Cell.na, Cell.na, Cell.na],
           [Cell.num 18, Cell.na, Cell.na, Cell.na],
           [Cell.num 19, Cell.na, Cell.na, Cell.na],
           [Cell.num 20, Cell.na, Cell.na, Cell.na],
           [Cell.num 21, Cell.na, Cell.na, Cell.na],
           [Cell.num 22, Cell.na, Cell.na, Cell.na],
           [Cell.num 23, Cell.na, Cell.na, Cell.num 100],
           [Cell.num 24, Cell.na, Cell.na, Cell.num 100]]⟩ := by
  refine ⟨by decide, by decide, by decide⟩

/-- C2.  The spec says RSI is undefined at every row with fewer than 14
deltas available, in particular at 0-indexed position 13.  In the code,
`delta.where(delta > 0, 0)` turns the leading NaN delta into 0 (NaN
compares false), so the 14-row gain/loss windows are already full at
position 13, and on the 14-point strictly increasing series the RSI cell
at position 13 is a defined 100 — only positions 0..12 are undefined. -/
theorem rsi_defined_at_position_13 :
    calculate_technical_indicators (dfOfCloses incrCloses14)
      = Except.ok ⟨["close", "SMA_20", "SMA_50", "RSI"],
          [[Cell.num 10, Cell.na, Cell.na, Cell.na],
           [Cell.num 11, Cell.na, Cell.na, Cell.na],
           [Cell.num 12, Cell.na, Cell.na, Cell.na],
           [Cell.num 13, Cell.na, Cell.na, Cell.na],
           [Cell.num 14, Cell.na, Cell.na, Cell.na],
           [Cell.num 15, Cell.na, Cell.na, Cell.na],
           [Cell.num 16, Cell.na, Cell.na, Cell.na],
           [Cell.num 17, Cell.na, Cell.na, Cell.na],
           [Cell.num 18, Cell.na, Cell.na, Cell.na],
           [Cell.num 19, Cell.na, Cell.na, Cell.na],
           [Cell.num 20, Cell.na, Cell.na, Cell.na],
           [Cell.num 21, Cell.na, Cell.na, Cell.na],
           [Cell.num 22, Cell.na, Cell.na, Cell.na],
           [Cell.num 23, Cell.na, Cell.na, Cell.num 100]]⟩ := by decide

/-- C3 counterexample.  `clean_stock_data` DOES raise for a malformed
individual field value: on a batch whose only malformation is one
unparseable date string, the whole call fails instead of degrading the
value to missing and dropping the row. -/
theorem clean_raises_on_malformed_date :
    clean_stock_data badDateBatch
      = Except.error "could not parse date not-a-date" := by decide

/-- C5 counterexample.  The output of `clean_stock_data` can contain two
fully identical rows: dedupe runs first, and the forward-fill afterwards
makes the second row (missing close) identical to the first. -/
theorem clean_output_can_have_duplicate_rows :
    ¬ (cleanRowsOf dupAfterFillBatch).Nodup := by decide

/-- C6 counterexample.  `clean_stock_data` is not idempotent: the first
pass leaves two identical rows (recreated by forward-fill after the
dedupe step), and the second pass collapses them. -/
theorem clean_not_idempotent :
    clean_twice dupAfterFillBatch2 ≠ clean_stock_data dupAfterFillBatch2 := by
  decide

/-- C7 counterexample.  `calculate_technical_indicators` assigns the new
columns on the very object the caller passed, so the frame of the caller is
changed by the call (it gains the SMA_20/SMA_50/RSI columns). -/
theorem indicators_mutate_caller_frame :
    calculate_technical_indicators_inputAfter oneCloseBatch
      ≠ oneCloseBatch := by decide

/-- C8.  When the close column — the one structural requirement of the
indicator computation — is entirely absent, the call fails as a whole
with an error naming the missing column, and no annotated frame is
produced. -/
theorem missing_close_rejects_batch (df : DF) (h : "close" ∉ df.cols) :
    calculate_technical_indicators df = Except.error "close" := by
  rw [calculate_technical_indicators, colIdx_eq_none_of_not_mem df.cols "close" h]

/-- Witness for C8 at a concrete frame with no close column. -/
theorem missing_close_rejects_batch_witness :
    "close" ∉ noCloseBatch.cols
  ∧ calculate_technical_indicators noCloseBatch = Except.error "close" :=
  ⟨by decide, missing_close_rejects_batch noCloseBatch (by decide)⟩

/-! C4: the trailing simple moving average -/

/-- Summing a column of finite values gives the finite sum. -/
theorem esum_map_fin (l : List ℚ) : esum (l.map ERat.fin) = ERat.fin l.sum := by
  induction l with
  | nil => rfl
  | cons x xs ih =>
    show eadd (ERat.fin x) (esum (xs.map ERat.fin)) = ERat.fin (x :: xs).sum
    rw [ih, List.sum_cons, ← qadd_eq]
    rfl

/-- Reading a rolling-mean column at a valid row position. -/
theorem rollingMean_getD (N : ℕ) (xs : List ERat) (i : ℕ) (hi : i < xs.length) :
    (rollingMean N xs).getD i ERat.nan = rollingMeanAt N xs i := by
  rw [rollingMean, List.getD_eq_getElem?_getD, List.getElem?_map, List.getElem?_range hi]
  rfl

/-- C4.  For N = 20 or N = 50 and a numeric close series, `SMA_N` at
0-indexed position i is undefined (NaN) while fewer than N rows are
available, and equals the arithmetic mean of `close[i-N+1 .. i]` exactly
once N rows are available.  In particular every value is undefined when
the series is shorter than N, and position N-1 carries the mean of the
first N closes. -/
theorem sma_trailing_mean (closes : List ℚ) (N i : ℕ)
    (hN : N = 20 ∨ N = 50) (hi : i < closes.length) :
    (i + 1 < N → (rollingMean N (closes.map ERat.fin)).getD i ERat.nan = ERat.nan)
  ∧ (N ≤ i + 1 → (rollingMean N (closes.map ERat.fin)).getD i ERat.nan
      = ERat.fin ((((closes.drop (i + 1 - N)).take N).sum) / (N : ℚ))) := by
  have hlen : i < (closes.map ERat.fin).length := by rw [List.length_map]; exact hi
  constructor
  · intro hw
    rw [rollingMean_getD N _ i hlen, rollingMeanAt, if_pos hw]
  · intro hw
    have hN0 : (N : ℚ) ≠ 0 := by
      rcases hN with h | h <;> rw [h] <;> norm_num
    rw [rollingMean_getD N _ i hlen, rollingMeanAt, if_neg (Nat.not_lt.mpr hw),
      ← List.map_drop, ← List.map_take, esum_map_fin]
    simp only [ediv]
    rw [if_neg hN0, qdiv_eq]

/-- Twenty constant closes of 7, for the C4 witness. -/
def constCloses20 : List ℚ := List.replicate 20 7

/-- Witness for C4: on a 20-point series, position 19 carries the mean of
the first 20 closes, here 7. -/
theorem sma_trailing_mean_witness :
    ((20 : ℕ) = 20 ∨ (20 : ℕ) = 50)
  ∧ (20 ≤ 19 + 1 →
      (rollingMean 20 (constCloses20.map ERat.fin)).getD 19 ERat.nan
        = ERat.fin ((((constCloses20.drop (19 + 1 - 20)).take 20).sum) / (20 : ℚ)))
  ∧ (rollingMean 20 (constCloses20.map ERat.fin)).getD 19 ERat.nan = ERat.fin 7 :=
  ⟨Or.inl rfl,
   (sma_trailing_mean constCloses20 20 19 (Or.inl rfl) (by decide)).2,
   by decide⟩

/-! C9: forward-fill fills from the nearest preceding value in the
column, with no regard to the symbol column -/

/-- One forward-fill update: a missing cell takes the carried value. -/
def fillUpd (acc c : Cell) : Cell := if c = Cell.na then acc else c

/-- The value forward-fill leaves at row i, column j: the last
non-missing cell in column j among rows 0..i (missing if there is none).
This folds over the column alone — the symbol column plays no part. -/
def prevFill (rows : List (List Cell)) (i j : ℕ) : Cell :=
  ((rows.take (i + 1)).map (fun r => r.getD j Cell.na)).foldl fillUpd Cell.na

theorem ffillStep_getD (r : List Cell) : ∀ (carry : List Cell) (j : ℕ),
    j < r.length → j < carry.length →
    (ffillStep carry r).getD j Cell.na
      = fillUpd (carry.getD j Cell.na) (r.getD j Cell.na) := by
  induction r with
  | nil => intro carry j hj _; exact absurd hj (Nat.not_lt_zero j)
  | cons c cs ih =>
    intro carry j hj hjc
    cases carry with
    | nil => exact absurd hjc (Nat.not_lt_zero j)
    | cons l ls =>
      cases j with
      | zero =>
        show ((if c = Cell.na then l else c) :: ffillStep ls cs).getD 0 Cell.na = _
        rw [List.getD_cons_zero, List.getD_cons_zero, List.getD_cons_zero, fillUpd]
      | succ j =>
        show ((if c = Cell.na then l else c) :: ffillStep ls cs).getD (j + 1) Cell.na = _
        rw [List.getD_cons_succ, List.getD_cons_succ, List.getD_cons_succ]
        exact ih ls j (Nat.lt_of_succ_lt_succ hj) (Nat.lt_of_succ_lt_succ hjc)

theorem ffillStep_length (r : List Cell) : ∀ (carry : List Cell),
    (ffillStep carry r).length = r.length := by
  induction r with
  | nil => intro carry; cases carry <;> rfl
  | cons c cs ih =>
    intro carry
    cases carry with
    | nil => show (c :: ffillStep [] cs).length = _; rw [List.length_cons, ih, List.length_cons]
    | cons l ls =>
      show ((if c = Cell.na then l else c) :: ffillStep ls cs).length = _
      rw [List.length_cons, ih, List.length_cons]

theorem getD_replicate_na (L j : ℕ) :
    (List.replicate L Cell.na).getD j Cell.na = Cell.na := by
  induction L generalizing j with
  | zero => rfl
  | succ n ih =>
    cases j with
    | zero => rfl
    | succ j => rw [List.replicate_succ, List.getD_cons_succ]; exact ih j

theorem ffillRowsAux_getD (rows : List (List Cell)) :
    ∀ (carry : List Cell) (L i j : ℕ),
    carry.length = L → (∀ r ∈ rows, r.length = L) → i < rows.length → j < L →
    ((ffillRowsAux carry rows).getD i []).getD j Cell.na
      = ((rows.take (i + 1)).map (fun r => r.getD j Cell.na)).foldl fillUpd
          (carry.getD j Cell.na) := by
  induction rows with
  | nil => intro carry L i j _ _ hi _; exact absurd hi (Nat.not_lt_zero i)
  | cons r rs ih =>
    intro carry L i j hc hr hi hj
    have hrL : r.length = L := hr r (List.mem_cons_self r rs)
    have hstep : (ffillStep carry r).getD j Cell.na
        = fillUpd (carry.getD j Cell.na) (r.getD j Cell.na) :=
      ffillStep_getD r carry j (by rw [hrL]; exact hj) (by rw [hc]; exact hj)
    cases i with
    | zero =>
      show ((ffillStep carry r :: ffillRowsAux (ffillStep carry r) rs).getD 0 []).getD j Cell.na = _
      rw [List.getD_cons_zero, hstep]
      rfl
    | succ i =>
      show ((ffillStep carry r :: ffillRowsAux (ffillStep carry r) rs).getD (i + 1) []).getD j Cell.na = _
      rw [List.getD_cons_succ]
      rw [ih (ffillStep carry r) L i j (by rw [ffillStep_length, hrL])
        (fun x hx => hr x (List.mem_cons_of_mem r hx)) (Nat.lt_of_succ_lt_succ hi) hj]
      rw [hstep]
      rfl

/-- C9.  The forward-fill step of `clean_stock_data` fills row i, column
j with the last non-missing value above it in column j, computed from
the column alone: `prevFill` never looks at the symbol column, so a
missing field is filled from the nearest preceding row even when that
row belongs to a different symbol. -/
theorem ffill_fills_from_nearest_preceding (rows : List (List Cell)) (L i j : ℕ)
    (hrows : ∀ r ∈ rows, r.length = L) (hi : i < rows.length) (hj : j < L) :
    ((ffill L rows).getD i []).getD j Cell.na = prevFill rows i j := by
  rw [ffill, ffillRowsAux_getD rows (List.replicate L Cell.na) L i j
    (List.length_replicate L Cell.na) hrows hi hj, getD_replicate_na, prevFill]

/-- Two rows of different symbols; the close of the second row is missing. -/
def crossSymbolRows : List (List Cell) :=
  [[Cell.str "A", Cell.dt 1, Cell.num 100],
   [Cell.str "B", Cell.dt 2, Cell.na]]

/-- Witness for C9: the missing close of symbol B is filled with the close
of symbol A, 100, the nearest preceding value in the column. -/
theorem ffill_fills_from_nearest_preceding_witness :
    ((ffill 3 crossSymbolRows).getD 1 []).getD 2 Cell.na = prevFill crossSymbolRows 1 2
  ∧ prevFill crossSymbolRows 1 2 = Cell.num 100 :=
  ⟨ffill_fills_from_nearest_preceding crossSymbolRows 3 1 2 (by decide) (by decide) (by decide),
   by decide⟩

/-! C3: which malformed values can make clean_stock_data raise -/

/-- Every date cell of the batch survives `to_datetime` without raising;
vacuously true when there is no date column. -/
def dateColParseable (df : DF) : Bool :=
  match colIdx df.cols "date" with
  | none => true
  | some j => df.rows.all (fun r => exceptIsOk (to_datetime (r.getD j Cell.na)))

theorem mem_of_mem_dropDupAux (rows : List (List Cell)) :
    ∀ (seen : List (List Cell)) (r : List Cell), r ∈ dropDupAux seen rows → r ∈ rows := by
  induction rows with
  | nil => intro seen r h; exact absurd h (List.not_mem_nil r)
  | cons x xs ih =>
    intro seen r h
    rw [dropDupAux] at h
    by_cases hx : x ∈ seen
    · rw [if_pos hx] at h
      exact List.mem_cons_of_mem x (ih seen r h)
    · rw [if_neg hx] at h
      rcases List.mem_cons.mp h with h1 | h2
      · rw [h1]; exact List.mem_cons_self x xs
      · exact List.mem_cons_of_mem x (ih (x :: seen) r h2)

theorem mem_of_mem_drop_duplicates (rows : List (List Cell)) (r : List Cell)
    (h : r ∈ drop_duplicates rows) : r ∈ rows :=
  mem_of_mem_dropDupAux rows [] r h

/-- A forward-filled cell is missing, the carried cell, or the own cell of
the row. -/
theorem ffillStep_getD_cases (r : List Cell) : ∀ (carry : List Cell) (j : ℕ),
    (ffillStep carry r).getD j Cell.na = Cell.na
  ∨ (ffillStep carry r).getD j Cell.na = carry.getD j Cell.na
  ∨ (ffillStep carry r).getD j Cell.na = r.getD j Cell.na := by
  induction r with
  | nil => intro carry j; left; cases carry <;> rfl
  | cons c cs ih =>
    intro carry j
    cases carry with
    | nil =>
      cases j with
      | zero => right; right; rfl
      | succ j =>
        have hs : ffillStep [] (c :: cs) = c :: ffillStep [] cs := rfl
        rcases ih [] j with h | h | h
        · left; rw [hs, List.getD_cons_succ]; exact h
        · left; rw [hs, List.getD_cons_succ, h]; rfl
        · right; right; rw [hs, List.getD_cons_succ, List.getD_cons_succ]; exact h
    | cons l ls =>
      have hs : ffillStep (l :: ls) (c :: cs)
          = (if c = Cell.na then l else c) :: ffillStep ls cs := rfl
      cases j with
      | zero =>
        by_cases hc : c = Cell.na
        · right; left; rw [hs, List.getD_cons_zero, if_pos hc, List.getD_cons_zero]
        · right; right; rw [hs, List.getD_cons_zero, if_neg hc, List.getD_cons_zero]
      | succ j =>
        rcases ih ls j with h | h | h
        · left; rw [hs, List.getD_cons_succ]; exact h
        · right; left; rw [hs, List.getD_cons_succ, List.getD_cons_succ]; exact h
        · right; right; rw [hs, List.getD_cons_succ, List.getD_cons_succ]; exact h

/-- A cell property that holds of missing cells, of the initial carry and
of every input cell in a column also holds of every forward-filled cell
in that column. -/
theorem ffillRowsAux_cell_prop (P : Cell → Prop) (hna : P Cell.na) (j : ℕ) :
    ∀ (rows : List (List Cell)) (carry : List Cell),
    P (carry.getD j Cell.na) → (∀ r ∈ rows, P (r.getD j Cell.na)) →
    ∀ r2 ∈ ffillRowsAux carry rows, P (r2.getD j Cell.na) := by
  intro rows
  induction rows with
  | nil => intro carry _ _ r2 h; exact absurd h (List.not_mem_nil r2)
  | cons r rs ih =>
    intro carry hc hr r2 h2
    have hstep : P ((ffillStep carry r).getD j Cell.na) := by
      rcases ffillStep_getD_cases r carry j with h | h | h
      · rw [h]; exact hna
      · rw [h]; exact hc
      · rw [h]; exact hr r (List.mem_cons_self r rs)
    simp only [ffillRowsAux] at h2
    rcases List.mem_cons.mp h2 with he | hm
    · rw [he]; exact hstep
    · exact ih (ffillStep carry r) hstep
        (fun x hx => hr x (List.mem_cons_of_mem r hx)) r2 hm

/-- The date conversion succeeds as a whole when every cell of the column
converts. -/
theorem coerceDateRows_isOk (j : ℕ) (rows : List (List Cell))
    (h : ∀ r ∈ rows, exceptIsOk (to_datetime (r.getD j Cell.na)) = true) :
    exceptIsOk (coerceDateRows j rows) = true := by
  induction rows with
  | nil => rfl
  | cons r rs ih =>
    have hr := h r (List.mem_cons_self r rs)
    have ihh := ih (fun x hx => h x (List.mem_cons_of_mem r hx))
    cases hd : to_datetime (r.getD j Cell.na) with
    | error e => rw [hd] at hr; simp [exceptIsOk] at hr
    | ok c =>
      cases hrec : coerceDateRows j rs with
      | error e => rw [hrec] at ihh; simp [exceptIsOk] at ihh
      | ok rs2 =>
        simp only [coerceDateRows, hd, hrec]
        rfl

/-- C3 (amended).  `clean_stock_data` cannot raise because of a malformed
price value — `pd.to_numeric(errors=coerce)` degrades those to missing,
and the dedupe/fill/drop steps are total.  The only field-level failure
is the date column: whenever every date cell (if a date column exists)
survives `to_datetime`, the whole call succeeds, whatever the price
cells contain. -/
theorem clean_never_raises_for_malformed_prices (df : DF)
    (h : dateColParseable df = true) :
    exceptIsOk (clean_stock_data df) = true := by
  cases hidx : colIdx df.cols "date" with
  | none =>
    simp only [clean_stock_data, hidx]
    rfl
  | some j =>
    have hall : ∀ r ∈ df.rows, exceptIsOk (to_datetime (r.getD j Cell.na)) = true := by
      rw [dateColParseable, hidx, List.all_eq_true] at h
      exact h
    have hP : ∀ r2 ∈ ffill df.cols.length (drop_duplicates df.rows),
        exceptIsOk (to_datetime (r2.getD j Cell.na)) = true := by
      apply ffillRowsAux_cell_prop (fun c => exceptIsOk (to_datetime c) = true) rfl j
      · rw [getD_replicate_na]; rfl
      · exact fun r hr => hall r (mem_of_mem_drop_duplicates df.rows r hr)
    have hok := coerceDateRows_isOk j _ hP
    cases hrec : coerceDateRows j (ffill df.cols.length (drop_duplicates df.rows)) with
    | error e => rw [hrec] at hok; simp [exceptIsOk] at hok
    | ok rows3 =>
      simp only [clean_stock_data, hidx, hrec]
      rfl

/-- Witness for amended C3: a batch with an unparseable price string
("abc") but well-formed dates cleans without raising. -/
theorem clean_never_raises_for_malformed_prices_witness :
    dateColParseable badPriceBatch = true
  ∧ exceptIsOk (clean_stock_data badPriceBatch) = true :=
  ⟨by decide, clean_never_raises_for_malformed_prices badPriceBatch (by decide)⟩

/-! C7 and C10: what the indicator call does to the frame -/

theorem setCol_cols_of_absent (df : DF) (name : String) (vals : List Cell)
    (h : colIdx df.cols name = none) :
    (setCol df name vals).cols = df.cols ++ [name] := by
  simp only [setCol, h]

theorem setCol_rows_of_absent (df : DF) (name : String) (vals : List Cell)
    (h : colIdx df.cols name = none) :
    (setCol df name vals).rows = (df.rows.zip vals).map (fun p => p.1 ++ [p.2]) := by
  simp only [setCol, h]

/-- C7 (amended).  `calculate_technical_indicators` assigns its new
columns on the very frame the caller passed: after a successful call the
frame held by the caller IS the returned annotated frame, with the three
indicator columns — not the unchanged input. -/
theorem indicators_augment_in_place (df out : DF)
    (h : calculate_technical_indicators df = Except.ok out)
    (h20 : "SMA_20" ∉ df.cols) (h50 : "SMA_50" ∉ df.cols) (hrsi : "RSI" ∉ df.cols) :
    calculate_technical_indicators_inputAfter df = out
  ∧ out.cols = df.cols ++ ["SMA_20", "SMA_50", "RSI"]
  ∧ calculate_technical_indicators_inputAfter df ≠ df := by
  have hAfter : calculate_technical_indicators_inputAfter df = out := by
    rw [calculate_technical_indicators_inputAfter, h]
  have hcols : out.cols = df.cols ++ ["SMA_20", "SMA_50", "RSI"] := by
    cases hc : colIdx df.cols "close" with
    | none =>
      rw [calculate_technical_indicators, hc] at h
      exact absurd h (by simp)
    | some j =>
      cases he : cellsToERat (df.rows.map (fun r => r.getD j Cell.na)) with
      | none =>
        simp only [calculate_technical_indicators, hc, he] at h
        exact absurd h (by simp)
      | some closes =>
        simp only [calculate_technical_indicators, hc, he, Except.ok.injEq] at h
        have n1 : colIdx df.cols "SMA_20" = none :=
          colIdx_eq_none_of_not_mem df.cols "SMA_20" h20
        have m50 : "SMA_50" ∉ df.cols ++ ["SMA_20"] := by
          intro hm
          rcases List.mem_append.mp hm with hm | hm
          · exact h50 hm
          · rw [List.mem_singleton] at hm; exact absurd hm (by decide)
        have mrsi : "RSI" ∉ (df.cols ++ ["SMA_20"]) ++ ["SMA_50"] := by
          intro hm
          rcases List.mem_append.mp hm with hm | hm
          · rcases List.mem_append.mp hm with hm2 | hm2
            · exact hrsi hm2
            · rw [List.mem_singleton] at hm2; exact absurd hm2 (by decide)
          · rw [List.mem_singleton] at hm; exact absurd hm (by decide)
        have c1 := setCol_cols_of_absent df "SMA_20"
          ((rollingMean 20 closes).map eratToCell) n1
        have n2 : colIdx (setCol df "SMA_20" ((rollingMean 20 closes).map eratToCell)).cols
            "SMA_50" = none := by
          rw [c1]; exact colIdx_eq_none_of_not_mem _ _ m50
        have c2 := setCol_cols_of_absent _ "SMA_50"
          ((rollingMean 50 closes).map eratToCell) n2
        have n3 : colIdx (setCol (setCol df "SMA_20" ((rollingMean 20 closes).map eratToCell))
            "SMA_50" ((rollingMean 50 closes).map eratToCell)).cols "RSI" = none := by
          rw [c2, c1]; exact colIdx_eq_none_of_not_mem _ _ mrsi
        have c3 := setCol_cols_of_absent _ "RSI" ((rsiCol closes).map eratToCell) n3
        rw [← h, c3, c2, c1, List.append_assoc, List.append_assoc]
        rfl
  refine ⟨hAfter, hcols, ?_⟩
  rw [hAfter]
  intro he
  rw [he] at hcols
  have hlen := congrArg List.length hcols
  rw [List.length_append] at hlen
  simp only [List.length_cons, List.length_nil] at hlen
  omega

/-- The annotated frame the indicator call produces from `oneCloseBatch`. -/
def annotatedOneClose : DF :=
  ⟨["close", "SMA_20", "SMA_50", "RSI"], [[Cell.num 1, Cell.na, Cell.na, Cell.na]]⟩

/-- Witness for amended C7 at a concrete one-column frame. -/
theorem indicators_augment_in_place_witness :
    calculate_technical_indicators_inputAfter oneCloseBatch = annotatedOneClose
  ∧ annotatedOneClose.cols = oneCloseBatch.cols ++ ["SMA_20", "SMA_50", "RSI"]
  ∧ calculate_technical_indicators_inputAfter oneCloseBatch ≠ oneCloseBatch :=
  indicators_augment_in_place oneCloseBatch annotatedOneClose
    (by decide) (by decide) (by decide) (by decide)

/-- Does a cell hold a finite numeric value? -/
def isNumCell : Cell → Bool
  | Cell.num _ => true
  | _ => false

/-- An all-numeric column converts to floats, one value per cell. -/
theorem cellsToERat_of_num (cells : List Cell)
    (h : ∀ c ∈ cells, isNumCell c = true) :
    ∃ es, cellsToERat cells = some es ∧ es.length = cells.length := by
  induction cells with
  | nil => exact ⟨[], rfl, rfl⟩
  | cons c cs ih =>
    have hc := h c (List.mem_cons_self c cs)
    obtain ⟨es, hes, hlen⟩ := ih (fun x hx => h x (List.mem_cons_of_mem c hx))
    cases c with
    | num q =>
      refine ⟨ERat.fin q :: es, ?_, ?_⟩
      · simp only [cellsToERat, cellToERat, hes]
      · rw [List.length_cons, List.length_cons, hlen]
    | na => exact absurd hc (by simp [isNumCell])
    | pinf => exact absurd hc (by simp [isNumCell])
    | ninf => exact absurd hc (by simp [isNumCell])
    | str s => exact absurd hc (by simp [isNumCell])
    | dt d => exact absurd hc (by simp [isNumCell])

theorem diffAux_length (ys : List ERat) : ∀ p, (diffAux p ys).length = ys.length := by
  induction ys with
  | nil => intro p; rfl
  | cons y ys ih =>
    intro p
    show (esub y p :: diffAux y ys).length = _
    rw [List.length_cons, ih, List.length_cons]

theorem diffCol_length (xs : List ERat) : (diffCol xs).length = xs.length := by
  cases xs with
  | nil => rfl
  | cons x xs =>
    show (ERat.nan :: diffAux x xs).length = _
    rw [List.length_cons, diffAux_length, List.length_cons]

theorem rollingMean_length (N : ℕ) (xs : List ERat) :
    (rollingMean N xs).length = xs.length := by
  rw [rollingMean, List.length_map, List.length_range]

theorem rsiCol_length (closes : List ERat) : (rsiCol closes).length = closes.length := by
  rw [rsiCol, List.length_map, rsCol, List.length_zipWith, gainAvg, lossAvg,
    rollingMean_length, rollingMean_length, gainCol, lossCol, List.length_map,
    List.length_map, diffCol_length, min_self]

/-- Appending one computed column value to each row, read back rowwise. -/
theorem zipAppend_getD (rows : List (List Cell)) : ∀ (vals : List Cell) (i : ℕ),
    rows.length = vals.length → i < rows.length →
    ((rows.zip vals).map (fun p => p.1 ++ [p.2])).getD i []
      = rows.getD i [] ++ [vals.getD i Cell.na] := by
  induction rows with
  | nil => intro vals i _ hi; exact absurd hi (Nat.not_lt_zero i)
  | cons r rs ih =>
    intro vals i h hi
    cases vals with
    | nil => exact absurd h (by rw [List.length_cons]; exact Nat.succ_ne_zero rs.length)
    | cons v vs =>
      cases i with
      | zero => rfl
      | succ i =>
        show (((r, v) :: rs.zip vs).map (fun p => p.1 ++ [p.2])).getD (i + 1) [] = _
        rw [List.map_cons, List.getD_cons_succ, List.getD_cons_succ, List.getD_cons_succ]
        exact ih vs i (by rw [List.length_cons, List.length_cons] at h; omega)
          (Nat.lt_of_succ_lt_succ hi)

theorem zipAppend_length (rows : List (List Cell)) (vals : List Cell)
    (h : rows.length = vals.length) :
    ((rows.zip vals).map (fun p => p.1 ++ [p.2])).length = rows.length := by
  rw [List.length_map, List.length_zip, h, min_self, ← h]

/-- The seven standard columns of a price-record batch. -/
def stdCols : List String := ["symbol", "date", "open", "high", "low", "close", "volume"]

theorem setCol_absent_getD (df : DF) (name : String) (vals : List Cell)
    (h : colIdx df.cols name = none) (hl : df.rows.length = vals.length)
    (i : ℕ) (hi : i < df.rows.length) :
    (setCol df name vals).rows.getD i [] = df.rows.getD i [] ++ [vals.getD i Cell.na] := by
  rw [setCol_rows_of_absent df name vals h]
  exact zipAppend_getD df.rows vals i hl hi

theorem setCol_absent_rows_length (df : DF) (name : String) (vals : List Cell)
    (h : colIdx df.cols name = none) (hl : df.rows.length = vals.length) :
    (setCol df name vals).rows.length = df.rows.length := by
  rw [setCol_rows_of_absent df name vals h]
  exact zipAppend_length df.rows vals hl

/-- C10.  On a standard price batch — the seven PriceRecord columns with
a numeric close column — the indicator call succeeds, drops no row,
leaves every pre-existing column value in place (each output row starts
with its input row, unchanged), and appends exactly the three columns
SMA_20, SMA_50, RSI. -/
theorem indicators_preserve_rows (df : DF)
    (hcols : df.cols = stdCols)
    (hlen7 : ∀ r ∈ df.rows, r.length = 7)
    (hclose : ∀ r ∈ df.rows, isNumCell (r.getD 5 Cell.na) = true) :
    exceptIsOk (calculate_technical_indicators df) = true
  ∧ (calculate_technical_indicators_inputAfter df).cols
      = stdCols ++ ["SMA_20", "SMA_50", "RSI"]
  ∧ (calculate_technical_indicators_inputAfter df).rows.length = df.rows.length
  ∧ ∀ i, i < df.rows.length →
      ((calculate_technical_indicators_inputAfter df).rows.getD i []).take 7
        = df.rows.getD i [] := by
  have hc : colIdx df.cols "close" = some 5 := by rw [hcols]; decide
  have hnum : ∀ c ∈ df.rows.map (fun r => r.getD 5 Cell.na), isNumCell c = true := by
    intro c hcm
    obtain ⟨r, hr, hrc⟩ := List.mem_map.mp hcm
    rw [← hrc]; exact hclose r hr
  obtain ⟨closes, hce, hclen⟩ := cellsToERat_of_num _ hnum
  have hn : closes.length = df.rows.length := by rw [hclen, List.length_map]
  have n1 : colIdx df.cols "SMA_20" = none := by rw [hcols]; decide
  have ca : (setCol df "SMA_20" ((rollingMean 20 closes).map eratToCell)).cols
      = stdCols ++ ["SMA_20"] := by
    rw [setCol_cols_of_absent _ _ _ n1, hcols]
  have n2 : colIdx (setCol df "SMA_20" ((rollingMean 20 closes).map eratToCell)).cols
      "SMA_50" = none := by rw [ca]; decide
  have cb : (setCol (setCol df "SMA_20" ((rollingMean 20 closes).map eratToCell))
      "SMA_50" ((rollingMean 50 closes).map eratToCell)).cols
      = (stdCols ++ ["SMA_20"]) ++ ["SMA_50"] := by
    rw [setCol_cols_of_absent _ _ _ n2, ca]
  have n3 : colIdx (setCol (setCol df "SMA_20" ((rollingMean 20 closes).map eratToCell))
      "SMA_50" ((rollingMean 50 closes).map eratToCell)).cols "RSI" = none := by
    rw [cb]; decide
  have hcalc : calculate_technical_indicators df
      = Except.ok (setCol (setCol (setCol df "SMA_20"
          ((rollingMean 20 closes).map eratToCell))
          "SMA_50" ((rollingMean 50 closes).map eratToCell))
          "RSI" ((rsiCol closes).map eratToCell)) := by
    simp only [calculate_technical_indicators, hc, hce]
  have hafter : calculate_technical_indicators_inputAfter df
      = setCol (setCol (setCol df "SMA_20" ((rollingMean 20 closes).map eratToCell))
          "SMA_50" ((rollingMean 50 closes).map eratToCell))
          "RSI" ((rsiCol closes).map eratToCell) := by
    rw [calculate_technical_indicators_inputAfter, hcalc]
  have lv1 : df.rows.length = ((rollingMean 20 closes).map eratToCell).length := by
    rw [List.length_map, rollingMean_length, hn]
  have la : (setCol df "SMA_20" ((rollingMean 20 closes).map eratToCell)).rows.length
      = df.rows.length := setCol_absent_rows_length _ _ _ n1 lv1
  have lv2 : (setCol df "SMA_20" ((rollingMean 20 closes).map eratToCell)).rows.length
      = ((rollingMean 50 closes).map eratToCell).length := by
    rw [la, List.length_map, rollingMean_length, hn]
  have lb : (setCol (setCol df "SMA_20" ((rollingMean 20 closes).map eratToCell))
      "SMA_50" ((rollingMean 50 closes).map eratToCell)).rows.length
      = df.rows.length := by
    rw [setCol_absent_rows_length _ _ _ n2 lv2, la]
  have lv3 : (setCol (setCol df "SMA_20" ((rollingMean 20 closes).map eratToCell))
      "SMA_50" ((rollingMean 50 closes).map eratToCell)).rows.length
      = ((rsiCol closes).map eratToCell).length := by
    rw [lb, List.length_map, rsiCol_length, hn]
  refine ⟨by rw [hcalc]; rfl, ?_, ?_, ?_⟩
  · rw [hafter, setCol_cols_of_absent _ _ _ n3, cb, List.append_assoc, List.append_assoc]
    rfl
  · rw [hafter, setCol_absent_rows_length _ _ _ n3 lv3, lb]
  · intro i hi
    rw [hafter]
    rw [setCol_absent_getD _ _ _ n3 lv3 i (by rw [lb]; exact hi)]
    rw [setCol_absent_getD _ _ _ n2 lv2 i (by rw [la]; exact hi)]
    rw [setCol_absent_getD _ _ _ n1 lv1 i hi]
    have hmem : df.rows.getD i [] ∈ df.rows := by
      rw [List.getD_eq_getElem df.rows [] hi]
      exact List.getElem_mem hi
    have h7 : (df.rows.getD i []).length = 7 := hlen7 _ hmem
    rw [List.append_assoc, List.append_assoc, ← h7, List.take_left]

/-- A one-row standard price batch for the C10 witness. -/
def stdRowBatch : DF :=
  ⟨stdCols,
   [[Cell.str "A", Cell.dt 1, Cell.num 1, Cell.num 2, Cell.num 0, Cell.num 1, Cell.num 5]]⟩

/-- Witness for C10 at a concrete standard batch. -/
theorem indicators_preserve_rows_witness :
    exceptIsOk (calculate_technical_indicators stdRowBatch) = true
  ∧ ((calculate_technical_indicators_inputAfter stdRowBatch).rows.getD 0 []).take 7
      = stdRowBatch.rows.getD 0 [] :=
  ⟨(indicators_preserve_rows stdRowBatch rfl (by decide) (by decide)).1,
   (indicators_preserve_rows stdRowBatch rfl (by decide) (by decide)).2.2.2 0 (by decide)⟩

/-! Shared lemmas about the cleaning stages, for C5 and C6 -/

/-- Does a cell hold a datetime value? -/
def isDtCell : Cell → Bool
  | Cell.dt _ => true
  | _ => false

theorem dropDupAux_spec (rows : List (List Cell)) :
    ∀ (seen : List (List Cell)),
    (∀ x ∈ dropDupAux seen rows, x ∉ seen) ∧ (dropDupAux seen rows).Nodup := by
  induction rows with
  | nil => intro seen; exact ⟨fun x hx => absurd hx (List.not_mem_nil x), List.nodup_nil⟩
  | cons r rs ih =>
    intro seen
    rw [dropDupAux]
    by_cases hr : r ∈ seen
    · rw [if_pos hr]; exact ih seen
    · rw [if_neg hr]
      obtain ⟨hout, hnd⟩ := ih (r :: seen)
      constructor
      · intro x hx hxseen
        rcases List.mem_cons.mp hx with he | hm
        · rw [he] at hxseen; exact hr hxseen
        · exact hout x hm (List.mem_cons_of_mem r hxseen)
      · rw [List.nodup_cons]
        exact ⟨fun hx => hout r hx (List.mem_cons_self r seen), hnd⟩

theorem drop_duplicates_nodup (rows : List (List Cell)) :
    (drop_duplicates rows).Nodup := (dropDupAux_spec rows []).2

theorem ffillStep_of_no_na (r : List Cell) : ∀ (carry : List Cell),
    (∀ c ∈ r, c ≠ Cell.na) → ffillStep carry r = r := by
  induction r with
  | nil => intro carry _; cases carry <;> rfl
  | cons c cs ih =>
    intro carry h
    have hc : c ≠ Cell.na := h c (List.mem_cons_self c cs)
    have hcs : ∀ x ∈ cs, x ≠ Cell.na := fun x hx => h x (List.mem_cons_of_mem c hx)
    cases carry with
    | nil => show c :: ffillStep [] cs = c :: cs; rw [ih [] hcs]
    | cons l ls =>
      show (if c = Cell.na then l else c) :: ffillStep ls cs = c :: cs
      rw [if_neg hc, ih ls hcs]

theorem ffillRowsAux_of_no_na (rows : List (List Cell)) :
    ∀ (carry : List Cell), (∀ r ∈ rows, ∀ c ∈ r, c ≠ Cell.na) →
    ffillRowsAux carry rows = rows := by
  induction rows with
  | nil => intro carry _; rfl
  | cons r rs ih =>
    intro carry h
    have hstep : ffillStep carry r = r :=
      ffillStep_of_no_na r carry (h r (List.mem_cons_self r rs))
    simp only [ffillRowsAux, hstep]
    rw [ih r (fun x hx => h x (List.mem_cons_of_mem r hx))]

theorem set_getD_self (r : List Cell) : ∀ (j : ℕ), r.set j (r.getD j Cell.na) = r := by
  induction r with
  | nil => intro j; rfl
  | cons c cs ih =>
    intro j
    cases j with
    | zero => rfl
    | succ j => show c :: cs.set j (cs.getD j Cell.na) = c :: cs; rw [ih j]

theorem getD_set_eq (r : List Cell) : ∀ (j : ℕ) (v : Cell), j < r.length →
    (r.set j v).getD j Cell.na = v := by
  induction r with
  | nil => intro j v hj; exact absurd hj (Nat.not_lt_zero j)
  | cons c cs ih =>
    intro j v hj
    cases j with
    | zero => rfl
    | succ j =>
      show (c :: cs.set j v).getD (j + 1) Cell.na = v
      rw [List.getD_cons_succ]
      exact ih j v (Nat.lt_of_succ_lt_succ hj)

theorem getD_set_ne (r : List Cell) : ∀ (i j : ℕ) (v : Cell), i ≠ j →
    (r.set i v).getD j Cell.na = r.getD j Cell.na := by
  induction r with
  | nil => intro i j v _; cases i <;> rfl
  | cons c cs ih =>
    intro i j v hne
    cases i with
    | zero =>
      cases j with
      | zero => exact absurd rfl hne
      | succ j => rfl
    | succ i =>
      cases j with
      | zero => rfl
      | succ j =>
        show (c :: cs.set i v).getD (j + 1) Cell.na = _
        rw [List.getD_cons_succ, List.getD_cons_succ]
        exact ih i j v (fun he => hne (by rw [he]))

theorem getD_of_le (r : List Cell) : ∀ (j : ℕ), r.length ≤ j →
    r.getD j Cell.na = Cell.na := by
  induction r with
  | nil => intro j _; rfl
  | cons c cs ih =>
    intro j hj
    cases j with
    | zero => exact absurd hj (by rw [List.length_cons]; omega)
    | succ j =>
      rw [List.getD_cons_succ]
      exact ih j (by rw [List.length_cons] at hj; omega)

theorem set_of_le (r : List Cell) : ∀ (j : ℕ) (v : Cell), r.length ≤ j →
    r.set j v = r := by
  induction r with
  | nil => intro j v _; rfl
  | cons c cs ih =>
    intro j v hj
    cases j with
    | zero => exact absurd hj (by rw [List.length_cons]; omega)
    | succ j =>
      show c :: cs.set j v = c :: cs
      rw [ih j v (by rw [List.length_cons] at hj; omega)]

/-- `to_datetime` returns missing and datetime cells unchanged. -/
theorem to_datetime_fixes (c : Cell) (h : c = Cell.na ∨ isDtCell c = true) :
    to_datetime c = Except.ok c := by
  rcases h with h | h
  · rw [h]; rfl
  · cases c <;> simp [isDtCell] at h <;> rfl

/-- A successful `to_datetime` produces a missing or datetime cell. -/
theorem to_datetime_ok_shape (x c : Cell) (h : to_datetime x = Except.ok c) :
    c = Cell.na ∨ isDtCell c = true := by
  cases x with
  | na => injection h with h; rw [← h]; left; rfl
  | num q => injection h with h; rw [← h]; right; rfl
  | dt d => injection h with h; rw [← h]; right; rfl
  | pinf => exact absurd h (by rw [to_datetime]; exact fun hc => Except.noConfusion hc)
  | ninf => exact absurd h (by rw [to_datetime]; exact fun hc => Except.noConfusion hc)
  | str s =>
    rw [to_datetime] at h
    cases hp : parseDate s with
    | some n => rw [hp] at h; injection h with h; rw [← h]; right; rfl
    | none => rw [hp] at h; exact absurd h (fun hc => Except.noConfusion hc)

theorem to_numeric_idem (c : Cell) : to_numeric (to_numeric c) = to_numeric c := by
  cases c with
  | na => rfl
  | num q => rfl
  | pinf => rfl
  | ninf => rfl
  | dt d => rfl
  | str s =>
    rw [to_numeric]
    cases hp : parseNum s with
    | some q => rfl
    | none => rfl

theorem to_numeric_fixes_num (c : Cell) (h : isNumCell c = true) : to_numeric c = c := by
  cases c <;> simp [isNumCell] at h <;> rfl

theorem map_eq_self_of_fixes {α : Type} (f : α → α) (l : List α)
    (h : ∀ a ∈ l, f a = a) : l.map f = l := by
  induction l with
  | nil => rfl
  | cons a as ih =>
    rw [List.map_cons, h a (List.mem_cons_self a as),
      ih (fun x hx => h x (List.mem_cons_of_mem a hx))]

/-- The numeric coercion of one column is the identity when every cell of
that column is already a fixed point of `to_numeric`. -/
theorem coerceNumericCol_id (cols : List String) (name : String)
    (rows : List (List Cell))
    (h : ∀ j, colIdx cols name = some j →
      ∀ r ∈ rows, to_numeric (r.getD j Cell.na) = r.getD j Cell.na) :
    coerceNumericCol cols name rows = rows := by
  cases hc : colIdx cols name with
  | none => simp only [coerceNumericCol, hc]
  | some j =>
    simp only [coerceNumericCol, hc]
    apply map_eq_self_of_fixes
    intro r hr
    rw [h j hc r hr]
    exact set_getD_self r j

/-- The date conversion is the identity when every date cell is already a
fixed point of `to_datetime`. -/
theorem coerceDateRows_id (j : ℕ) (rows : List (List Cell))
    (h : ∀ r ∈ rows, to_datetime (r.getD j Cell.na) = Except.ok (r.getD j Cell.na)) :
    coerceDateRows j rows = Except.ok rows := by
  induction rows with
  | nil => rfl
  | cons r rs ih =>
    have hr := h r (List.mem_cons_self r rs)
    have ihh := ih (fun x hx => h x (List.mem_cons_of_mem r hx))
    simp only [coerceDateRows, hr, ihh, set_getD_self]

theorem no_na_of_rowHasNa_false (r : List Cell) (h : rowHasNa r = false) :
    ∀ c ∈ r, c ≠ Cell.na := by
  intro c hc he
  have : r.any (fun c => c == Cell.na) = true :=
    List.any_eq_true.mpr ⟨c, hc, by rw [he]; rfl⟩
  rw [rowHasNa] at h
  rw [h] at this
  exact Bool.noConfusion this

theorem dropna_of_no_na (rows : List (List Cell))
    (h : ∀ r ∈ rows, rowHasNa r = false) : dropna rows = rows := by
  rw [dropna, List.filter_eq_self]
  intro r hr
  rw [h r hr]
  rfl

/-- Coercing some other column preserves any property of the cells of
column j, provided that other column cannot sit at index j. -/
theorem coerceNumericCol_preserves (Q : Cell → Prop) (cols : List String)
    (name2 : String) (rows : List (List Cell)) (j : ℕ)
    (hQ : ∀ r ∈ rows, Q (r.getD j Cell.na))
    (hne : ∀ j2, colIdx cols name2 = some j2 → j2 ≠ j) :
    ∀ r2 ∈ coerceNumericCol cols name2 rows, Q (r2.getD j Cell.na) := by
  intro r2 h2
  cases hc : colIdx cols name2 with
  | none => rw [coerceNumericCol, hc] at h2; exact hQ r2 h2
  | some j2 =>
    simp only [coerceNumericCol, hc] at h2
    obtain ⟨r, hr, hrr⟩ := List.mem_map.mp h2
    rw [← hrr, getD_set_ne r j2 j _ (hne j2 hc)]
    exact hQ r hr

/-- Being a fixed point of `to_numeric` at column j survives the numeric
coercion of any column (the same column re-coerces to the same value;
another column leaves j untouched). -/
theorem coerceNumericCol_preserves_fixed (cols : List String) (name2 : String)
    (rows : List (List Cell)) (j : ℕ)
    (hQ : ∀ r ∈ rows, to_numeric (r.getD j Cell.na) = r.getD j Cell.na) :
    ∀ r2 ∈ coerceNumericCol cols name2 rows,
      to_numeric (r2.getD j Cell.na) = r2.getD j Cell.na := by
  intro r2 h2
  cases hc : colIdx cols name2 with
  | none => rw [coerceNumericCol, hc] at h2; exact hQ r2 h2
  | some j2 =>
    simp only [coerceNumericCol, hc] at h2
    obtain ⟨r, hr, hrr⟩ := List.mem_map.mp h2
    rw [← hrr]
    by_cases hj : j2 = j
    · rw [hj]
      rcases Nat.lt_or_ge j r.length with hlt | hge
      · rw [getD_set_eq r j _ hlt]
        exact to_numeric_idem _
      · rw [set_of_le r j _ hge, getD_of_le r j hge]
        rfl
    · rw [getD_set_ne r j2 j _ hj]
      exact hQ r hr

/-- After newly coercing column j itself, its cells are fixed points of
`to_numeric`. -/
theorem coerceNumericCol_fixes_own (cols : List String) (name : String)
    (rows : List (List Cell)) (j : ℕ) (h : colIdx cols name = some j) :
    ∀ r2 ∈ coerceNumericCol cols name rows,
      to_numeric (r2.getD j Cell.na) = r2.getD j Cell.na := by
  intro r2 h2
  simp only [coerceNumericCol, h] at h2
  obtain ⟨r, hr, hrr⟩ := List.mem_map.mp h2
  rw [← hrr]
  rcases Nat.lt_or_ge j r.length with hlt | hge
  · rw [getD_set_eq r j _ hlt]
    exact to_numeric_idem _
  · rw [set_of_le r j _ hge, getD_of_le r j hge]
    rfl

/-- Folding the numeric coercion over a list of column names preserves a
property of the cells of column j when none of those names can sit at
index j. -/
theorem coercePricesAux_preserves (Q : Cell → Prop) (cols : List String) :
    ∀ (names : List String) (rows : List (List Cell)) (j : ℕ),
    (∀ n2 ∈ names, ∀ j2, colIdx cols n2 = some j2 → j2 ≠ j) →
    (∀ r ∈ rows, Q (r.getD j Cell.na)) →
    ∀ r2 ∈ names.foldl (fun rs c => coerceNumericCol cols c rs) rows,
      Q (r2.getD j Cell.na) := by
  intro names
  induction names with
  | nil => intro rows j _ hQ r2 h2; exact hQ r2 h2
  | cons n ns ih =>
    intro rows j hne hQ r2 h2
    exact ih (coerceNumericCol cols n rows) j
      (fun n2 hn2 => hne n2 (List.mem_cons_of_mem n hn2))
      (coerceNumericCol_preserves Q cols n rows j hQ (hne n (List.mem_cons_self n ns)))
      r2 h2

/-- Folding the numeric coercion preserves `to_numeric`-fixedness of the
cells of any column. -/
theorem coercePricesAux_preserves_fixed (cols : List String) :
    ∀ (names : List String) (rows : List (List Cell)) (j : ℕ),
    (∀ r ∈ rows, to_numeric (r.getD j Cell.na) = r.getD j Cell.na) →
    ∀ r2 ∈ names.foldl (fun rs c => coerceNumericCol cols c rs) rows,
      to_numeric (r2.getD j Cell.na) = r2.getD j Cell.na := by
  intro names
  induction names with
  | nil => intro rows j hQ r2 h2; exact hQ r2 h2
  | cons n ns ih =>
    intro rows j hQ r2 h2
    exact ih (coerceNumericCol cols n rows) j
      (coerceNumericCol_preserves_fixed cols n rows j hQ) r2 h2

/-- After the fold has processed a name that resolves to column j, the
cells of column j are fixed points of `to_numeric`. -/
theorem coercePricesAux_fixes (cols : List String) :
    ∀ (names : List String) (rows : List (List Cell)) (name : String) (j : ℕ),
    name ∈ names → colIdx cols name = some j →
    ∀ r2 ∈ names.foldl (fun rs c => coerceNumericCol cols c rs) rows,
      to_numeric (r2.getD j Cell.na) = r2.getD j Cell.na := by
  intro names
  induction names with
  | nil => intro rows name j hmem _ _ _; exact absurd hmem (List.not_mem_nil name)
  | cons n ns ih =>
    intro rows name j hmem hidx r2 h2
    rcases List.mem_cons.mp hmem with he | hm
    · rw [he] at hidx
      exact coercePricesAux_preserves_fixed cols ns (coerceNumericCol cols n rows) j
        (coerceNumericCol_fixes_own cols n rows j hidx) r2 h2
    · exact ih (coerceNumericCol cols n rows) name j hm hidx r2 h2

/-- The cells a successful date conversion leaves in the date column are
missing or datetime values. -/
theorem coerceDateRows_ok_cells (j : ℕ) : ∀ (rows rows2 : List (List Cell)),
    coerceDateRows j rows = Except.ok rows2 →
    ∀ r2 ∈ rows2, r2.getD j Cell.na = Cell.na ∨ isDtCell (r2.getD j Cell.na) = true := by
  intro rows
  induction rows with
  | nil =>
    intro rows2 h r2 h2
    injection h with h
    rw [← h] at h2
    exact absurd h2 (List.not_mem_nil r2)
  | cons r rs ih =>
    intro rows2 h r2 h2
    cases hd : to_datetime (r.getD j Cell.na) with
    | error e =>
      simp only [coerceDateRows, hd] at h
      exact Except.noConfusion h
    | ok c =>
      cases hrec : coerceDateRows j rs with
      | error e =>
        simp only [coerceDateRows, hd, hrec] at h
        exact Except.noConfusion h
      | ok rs2 =>
        simp only [coerceDateRows, hd, hrec, Except.ok.injEq] at h
        rw [← h] at h2
        rcases List.mem_cons.mp h2 with he | hm
        · rw [he]
          rcases Nat.lt_or_ge j r.length with hj | hj
          · rw [getD_set_eq r j c hj]
            exact to_datetime_ok_shape _ c hd
          · rw [set_of_le r j c hj, getD_of_le r j hj]
            left; rfl
        · exact ih rs2 hrec r2 hm

theorem mem_of_mem_dropna (rows : List (List Cell)) (r : List Cell)
    (h : r ∈ dropna rows) : r ∈ rows := List.mem_of_mem_filter h

theorem rowHasNa_false_of_mem_dropna (rows : List (List Cell)) (r : List Cell)
    (h : r ∈ dropna rows) : rowHasNa r = false := by
  have hf := List.of_mem_filter h
  cases hh : rowHasNa r
  · rfl
  · rw [hh] at hf; exact Bool.noConfusion hf

/-- On a frame whose rows are already in cleaned shape — no missing
cells, date cells fixed by `to_datetime`, price cells fixed by
`to_numeric` — `clean_stock_data` reduces to its deduplication step. -/
theorem clean_of_cleaned_rows (d : DF)
    (hna : ∀ r ∈ d.rows, rowHasNa r = false)
    (hdt : ∀ j, colIdx d.cols "date" = some j →
      ∀ r ∈ d.rows, to_datetime (r.getD j Cell.na) = Except.ok (r.getD j Cell.na))
    (hfix : ∀ name ∈ price_columns, ∀ j, colIdx d.cols name = some j →
      ∀ r ∈ d.rows, to_numeric (r.getD j Cell.na) = r.getD j Cell.na) :
    clean_stock_data d = Except.ok ⟨d.cols, drop_duplicates d.rows⟩ := by
  have hd : ∀ r ∈ drop_duplicates d.rows, r ∈ d.rows :=
    fun r hr => mem_of_mem_drop_duplicates _ r hr
  have hdna : ∀ r ∈ drop_duplicates d.rows, ∀ c ∈ r, c ≠ Cell.na :=
    fun r hr => no_na_of_rowHasNa_false r (hna r (hd r hr))
  have hff : ffill d.cols.length (drop_duplicates d.rows) = drop_duplicates d.rows :=
    ffillRowsAux_of_no_na _ _ hdna
  have hdn : dropna (drop_duplicates d.rows) = drop_duplicates d.rows :=
    dropna_of_no_na _ (fun r hr => hna r (hd r hr))
  have hcp : coercePrices d.cols (drop_duplicates d.rows) = drop_duplicates d.rows := by
    show coerceNumericCol d.cols "low" (coerceNumericCol d.cols "high"
      (coerceNumericCol d.cols "close" (coerceNumericCol d.cols "open"
        (drop_duplicates d.rows)))) = drop_duplicates d.rows
    rw [coerceNumericCol_id _ _ _ (fun j hj r hr => hfix "open" (by decide) j hj r (hd r hr)),
        coerceNumericCol_id _ _ _ (fun j hj r hr => hfix "close" (by decide) j hj r (hd r hr)),
        coerceNumericCol_id _ _ _ (fun j hj r hr => hfix "high" (by decide) j hj r (hd r hr)),
        coerceNumericCol_id _ _ _ (fun j hj r hr => hfix "low" (by decide) j hj r (hd r hr))]
  cases hidx : colIdx d.cols "date" with
  | none =>
    simp only [clean_stock_data, hidx, hff]
    rw [hcp, hdn]
  | some j =>
    have hcdr := coerceDateRows_id j (drop_duplicates d.rows)
      (fun r hr => hdt j hidx r (hd r hr))
    simp only [clean_stock_data, hidx, hff, hcdr]
    rw [hcp, hdn]

/-! C5: when the cleaned output is duplicate-free -/

/-- A cell already in the type its column expects: a datetime in the
date column, a number in a price column. -/
def typedCell (name : String) (c : Cell) : Bool :=
  ((!decide (name = "date")) || isDtCell c)
    && ((!decide (name ∈ price_columns)) || isNumCell c)

/-- A fully-typed row: aligned with the columns, no missing cell, every
cell already in the type of its column. -/
def typedRow (cols : List String) (r : List Cell) : Bool :=
  ((r.length == cols.length) && (!rowHasNa r))
    && ((List.range cols.length).all (fun k => typedCell (cols.getD k "") (r.getD k Cell.na)))

/-- A batch all of whose rows are fully typed. -/
def typedBatch (df : DF) : Bool := df.rows.all (typedRow df.cols)

theorem typedRow_no_na (cols : List String) (r : List Cell)
    (h : typedRow cols r = true) : rowHasNa r = false := by
  rw [typedRow, Bool.and_eq_true, Bool.and_eq_true] at h
  have h1 := h.1.2
  cases hh : rowHasNa r
  · rfl
  · rw [hh] at h1; exact Bool.noConfusion h1

theorem typedRow_cell (cols : List String) (r : List Cell)
    (h : typedRow cols r = true) (j : ℕ) (hj : j < cols.length) :
    typedCell (cols.getD j "") (r.getD j Cell.na) = true := by
  rw [typedRow, Bool.and_eq_true] at h
  have h3 := h.2
  rw [List.all_eq_true] at h3
  exact h3 j (List.mem_range.mpr hj)

/-- On a fully-typed batch, every cleaning stage after deduplication is
the identity. -/
theorem clean_typed_eq (df : DF) (h : typedBatch df = true) :
    clean_stock_data df = Except.ok ⟨df.cols, drop_duplicates df.rows⟩ := by
  have hrows : ∀ r ∈ df.rows, typedRow df.cols r = true := List.all_eq_true.mp h
  refine clean_of_cleaned_rows df ?_ ?_ ?_
  · exact fun r hr => typedRow_no_na df.cols r (hrows r hr)
  · intro j hj r hr
    obtain ⟨hlt, hget⟩ := colIdx_getD df.cols "date" j hj
    have hc := typedRow_cell df.cols r (hrows r hr) j hlt
    rw [hget, typedCell, Bool.and_eq_true] at hc
    have h1 := hc.1
    rw [decide_eq_true (rfl : "date" = "date")] at h1
    simp only [Bool.not_true, Bool.false_or] at h1
    exact to_datetime_fixes _ (Or.inr h1)
  · intro name hmem j hj r hr
    obtain ⟨hlt, hget⟩ := colIdx_getD df.cols name j hj
    have hc := typedRow_cell df.cols r (hrows r hr) j hlt
    rw [hget, typedCell, Bool.and_eq_true] at hc
    have h2 := hc.2
    rw [decide_eq_true hmem] at h2
    simp only [Bool.not_true, Bool.false_or] at h2
    exact to_numeric_fixes_num _ h2

/-- C5 (amended).  On a fully-typed batch — no missing cells, datetime
date cells, numeric price cells — the output of `clean_stock_data`
contains no two fully identical rows, because deduplication runs and the
later stages change nothing.  (On general batches the dedupe step runs
FIRST, and forward-fill or coercion can then make two distinct rows
identical, so the output can contain duplicates.) -/
theorem clean_typed_batch_has_no_duplicate_rows (df : DF)
    (h : typedBatch df = true) : (cleanRowsOf df).Nodup := by
  simp only [cleanRowsOf, clean_typed_eq df h]
  exact drop_duplicates_nodup df.rows

/-- A fully-typed two-row batch. -/
def typedTwoRowBatch : DF :=
  ⟨["symbol", "date", "close"],
   [[Cell.str "A", Cell.dt 1, Cell.num 5],
    [Cell.str "A", Cell.dt 2, Cell.num 5]]⟩

/-- Witness for amended C5 at a concrete fully-typed batch. -/
theorem clean_typed_batch_has_no_duplicate_rows_witness :
    typedBatch typedTwoRowBatch = true ∧ (cleanRowsOf typedTwoRowBatch).Nodup :=
  ⟨by decide, clean_typed_batch_has_no_duplicate_rows typedTwoRowBatch (by decide)⟩

/-! C6: a second clean only re-deduplicates -/

/-- C6 (amended).  Applying `clean_stock_data` twice is exactly
re-deduplicating the first result: on the already-cleaned output,
forward-fill and both coercions are the identity, so
`clean(clean(b)) = dedupe(clean(b))`.  Idempotence holds exactly when the
first output has no duplicate rows; forward-fill after the dedupe step
can recreate duplicates, so in general it fails. -/
theorem clean_clean_eq_dedup_clean (b d : DF)
    (h : clean_stock_data b = Except.ok d) :
    clean_stock_data d = Except.ok ⟨d.cols, drop_duplicates d.rows⟩ := by
  cases hidx : colIdx b.cols "date" with
  | none =>
    simp only [clean_stock_data, hidx, Except.ok.injEq] at h
    have hcols : d.cols = b.cols := by rw [← h]
    have hrows : d.rows = dropna (coercePrices b.cols
        (ffill b.cols.length (drop_duplicates b.rows))) := by rw [← h]
    refine clean_of_cleaned_rows d ?_ ?_ ?_
    · intro r hr
      rw [hrows] at hr
      exact rowHasNa_false_of_mem_dropna _ r hr
    · intro j hj
      rw [hcols, hidx] at hj
      exact absurd hj (fun hc => Option.noConfusion hc)
    · intro name hmem j hj r hr
      rw [hcols] at hj
      rw [hrows] at hr
      exact coercePricesAux_fixes b.cols price_columns _ name j hmem hj r
        (mem_of_mem_dropna _ r hr)
  | some jd =>
    cases hcdr : coerceDateRows jd (ffill b.cols.length (drop_duplicates b.rows)) with
    | error e =>
      simp only [clean_stock_data, hidx, hcdr] at h
      exact Except.noConfusion h
    | ok R3 =>
      simp only [clean_stock_data, hidx, hcdr, Except.ok.injEq] at h
      have hcols : d.cols = b.cols := by rw [← h]
      have hrows : d.rows = dropna (coercePrices b.cols R3) := by rw [← h]
      have hne : ∀ n2 ∈ price_columns, ∀ j2, colIdx b.cols n2 = some j2 → j2 ≠ jd := by
        intro n2 hn2 j2 hj2 heq
        obtain ⟨hlt2, hg2⟩ := colIdx_getD b.cols n2 j2 hj2
        obtain ⟨hltd, hgd⟩ := colIdx_getD b.cols "date" jd hidx
        rw [heq, hgd] at hg2
        rw [← hg2] at hn2
        exact absurd hn2 (by decide)
      refine clean_of_cleaned_rows d ?_ ?_ ?_
      · intro r hr
        rw [hrows] at hr
        exact rowHasNa_false_of_mem_dropna _ r hr
      · intro j hj r hr
        rw [hcols, hidx] at hj
        injection hj with hjd
        rw [hrows] at hr
        have hQ := coercePricesAux_preserves
          (fun c => c = Cell.na ∨ isDtCell c = true) b.cols price_columns R3 jd hne
          (coerceDateRows_ok_cells jd _ R3 hcdr) r (mem_of_mem_dropna _ r hr)
        rw [← hjd]
        exact to_datetime_fixes _ hQ
      · intro name hmem j hj r hr
        rw [hcols] at hj
        rw [hrows] at hr
        exact coercePricesAux_fixes b.cols price_columns _ name j hmem hj r
          (mem_of_mem_dropna _ r hr)

/-- The cleaned form of `dupAfterFillBatch2`: forward-fill has copied the
close of the first row into the second, leaving two identical rows. -/
def cleanedDupBatch : DF :=
  ⟨["symbol", "date", "close"],
   [[Cell.str "A", Cell.dt 20230102, Cell.num 5],
    [Cell.str "A", Cell.dt 20230102, Cell.num 5]]⟩

/-- Witness for amended C6: the concrete batch whose clean output holds
two identical rows; the second clean is exactly the dedupe of that
output. -/
theorem clean_clean_eq_dedup_clean_witness :
    clean_stock_data dupAfterFillBatch2 = Except.ok cleanedDupBatch
  ∧ clean_stock_data cleanedDupBatch
      = Except.ok ⟨cleanedDupBatch.cols, drop_duplicates cleanedDupBatch.rows⟩ :=
  ⟨by decide, clean_clean_eq_dedup_clean dupAfterFillBatch2 cleanedDupBatch (by decide)⟩
